import Mathlib

/-!
Verification of the MoE token routing and permutation engine from
`megablocks/layers/moe.py`.

The file shallowly embeds the routing pipeline: the stable sort /
histogram / cumulative-sum index bookkeeping (`indices_and_bins`), the
capacity-bounded gather/scatter permutation (`permute_and_compute`), the
capacity resolution of `forward_once` / `parallel_forward_once`, the
count bookkeeping and communication schedule of `parallel_forward_once`,
the top-k combination of `forward`, the load-balancing side-channel list,
and the configuration checks of `MoE.__init__` / `create_expert_weights`.

Token rows are kept abstract (`α` with a designated zero row `z`) for the
permutation machinery, and instantiated at `List ℚ` rows for the
weighted top-k combination.  The accelerated kernels (`ops.sort`,
`ops.histogram`, `ops.inclusive_cumsum`, `ops.binned_gather`,
`ops.binned_scatter`) and the `all_to_all` wrapper live outside the
Python layer file; their definitions below are modelled from the spec's
contracts (§4.2–§4.5).
-/

namespace MB

/-- The positions (original token rows) assigned to expert `e`, in
original order. -/
def bucket (te : List Nat) (e : Nat) : List Nat :=
  (List.range te.length).filter (fun i => te.getD i 0 == e)

/-- Modelled from the spec: `ops.sort` (§4.2), the radix-sort kernel
called by `indices_and_bins` (moe.py line 233) whose implementation is
outside `moe.py`.  Stable sort of the token positions `[0, T)` by their
assigned expert id: positions are grouped by ascending expert id, and
inside one expert group they keep their original relative order.  This
is the `indices` component of `ops.sort`'s result. -/
def sortIndices (te : List Nat) (E : Nat) : List Nat :=
  (List.range E).flatMap (bucket te)

/-- The `bin_ids` component of `ops.sort`'s result: the expert ids in
sorted order (the value at each sorted position). -/
def sortBinIds (te : List Nat) (E : Nat) : List Nat :=
  (sortIndices te E).map (fun i => te.getD i 0)

/-- Modelled from the spec: `ops.histogram` (§4.2), called at moe.py
line 241.  `counts[e]` is the number of tokens assigned to expert `e`,
for `e ∈ [0, E)`. -/
def histogram (te : List Nat) (E : Nat) : List Nat :=
  (List.range E).map (fun e => te.count e)

/-- Modelled from the spec: `ops.inclusive_cumsum` (§4.2), called at
moe.py line 244.  `bins[e] = counts[0] + ... + counts[e]`. -/
def inclusive_cumsum (l : List Nat) : List Nat :=
  (List.range l.length).map (fun i => (l.take (i + 1)).sum)

/-- `MoE.indices_and_bins` (moe.py lines 225–246): sorts the expert ids,
histograms them and computes the inclusive-cumsum bin boundaries.
Returns `(indices, bin_ids, bins, tokens_per_expert)`. -/
def indices_and_bins (te : List Nat) (E : Nat) :
    List Nat × List Nat × List Nat × List Nat :=
  (sortIndices te E, sortBinIds te E,
   inclusive_cumsum (histogram te E), histogram te E)

/-- Start offset of expert `e`'s segment in the sorted order:
`0` for `e = 0`, else `bins[e-1]` (as read by the gather/scatter
kernels). -/
def binStart (bins : List Nat) (e : Nat) : Nat :=
  if e = 0 then 0 else bins.getD (e - 1) 0

/-- Number of tokens in expert `e`'s segment: `bins[e] - binStart e`. -/
def binCount (bins : List Nat) (e : Nat) : Nat :=
  bins.getD e 0 - binStart bins e

/-- Modelled from the spec: `ops.binned_gather` (§4.3), called at moe.py
line 261.  For each expert `e`, the first `min (binCount e) capacity`
tokens of its sorted segment are copied into rows
`e * capacity, e * capacity + 1, ...` of the output; the remaining rows
of the `capacity`-sized segment are left at the zero row `z`.  Tokens
beyond `capacity` are dropped.  `gatherSegment` is expert `e`'s
`capacity`-sized output block. -/
def gatherSegment (x : List α) (indices bins : List Nat) (capacity : Nat)
    (z : α) (e : Nat) : List α :=
  (((indices.drop (binStart bins e)).take
      (min (binCount bins e) capacity)).map (fun i => x.getD i z))
    ++ List.replicate (capacity - min (binCount bins e) capacity) z

/-- See `gatherSegment`: the gathered rows, experts in order, one
`capacity`-sized block each. -/
def binned_gather (x : List α) (indices bins : List Nat) (capacity : Nat)
    (z : α) : List α :=
  (List.range bins.length).flatMap (gatherSegment x indices bins capacity z)

/-- The gather slots `(e, j)` that hold a real (non-padding) token row:
expert `e < E` and offset `j < min (binCount e) capacity`.  Slot `(e, j)`
holds the token whose original row is `indices[binStart e + j]`. -/
def keptSlots (bins : List Nat) (capacity : Nat) : List (Nat × Nat) :=
  (List.range bins.length).flatMap (fun e =>
    (List.range (min (binCount bins e) capacity)).map (fun j => (e, j)))

/-- Modelled from the spec: `ops.binned_scatter` (§4.3), called at
moe.py line 268.  The exact inverse of `binned_gather`: each gathered
row is written back to its original row index; rows dropped at gather
time are left at their default value `z`.  The capacity is recovered
from the input shape (`y` has `E * capacity` rows), as the kernel does.
The output row for original token `t` is the row of the unique kept slot
whose gathered token is `t`, or `z` when no kept slot maps to `t`. -/
def binned_scatter (y : List α) (indices bins : List Nat) (z : α) :
    List α :=
  let capacity := y.length / bins.length
  (List.range indices.length).map (fun t =>
    match (keptSlots bins capacity).find?
        (fun s => indices.getD (binStart bins s.1 + s.2) 0 == t) with
    | some s => y.getD (s.1 * capacity + s.2) z
    | none => z)

/-- `MoE.permute_and_compute` (moe.py lines 251–268): gather the token
rows by expert with capacity truncation, apply the expert computation,
and scatter the results back to original token order. -/
def permute_and_compute (x : List α) (indices bins : List Nat)
    (capacity : Nat) (compute : List α → List α) (z : α) : List α :=
  binned_scatter (compute (binned_gather x indices bins capacity z))
    indices bins z

/-- Capacity resolution shared by `forward_once` (moe.py lines 277–279)
and `parallel_forward_once` (lines 395–397): a configured capacity of
`0` resolves to the maximum per-expert token count of this call
(`torch.max(tokens_per_expert)`). -/
def resolve_capacity (cfg : Nat) (tpe : List Nat) : Nat :=
  if cfg = 0 then tpe.foldr max 0 else cfg

/-- `MoE.forward_once` (moe.py lines 270–282): compute indices and bins,
resolve the expert capacity, then permute and compute.  Returns the
routed output and `tokens_per_expert`. -/
def forward_once (cfg : Nat) (x : List α) (te : List Nat) (E : Nat)
    (compute : List α → List α) (z : α) : List α × List Nat :=
  match indices_and_bins te E with
  | (indices, _bin_ids, bins, tpe) =>
    (permute_and_compute x indices bins (resolve_capacity cfg tpe)
      compute z, tpe)

/-- `save_load_balancing_loss` (moe.py lines 16–18): appends one loss
contribution to the process-wide list.  The global list is embedded as
explicit state. -/
def save_load_balancing_loss (st : List L) (loss : L) : List L :=
  st ++ [loss]

/-- `get_load_balancing_loss` (moe.py lines 21–23): returns the list,
leaving it unchanged. -/
def get_load_balancing_loss (st : List L) : List L := st

/-- `clear_load_balancing_loss` (moe.py lines 26–28): empties the
list. -/
def clear_load_balancing_loss (_st : List L) : List L := ([] : List L)

/-- `tokens_per_expert.view(world_size, -1)` followed by `.sum(dim=-1)`
(moe.py lines 340–347): the per-destination-device row sums of the
per-expert counts; row `r` covers the `num_experts_per_rank`-sized
expert shard owned by device `r`. -/
def rowSums (l : List Nat) (ws : Nat) : List Nat :=
  (List.range ws).map
    (fun r => ((l.drop (r * (l.length / ws))).take (l.length / ws)).sum)

/-- `parallel_tokens_per_expert.sum(dim=0)` on the
`[world_size, num_experts_per_rank]` view (moe.py lines 383–384): the
per-local-expert column sums over source devices. -/
def colSums (l : List Nat) (ws : Nat) : List Nat :=
  (List.range (l.length / ws)).map
    (fun c =>
      ((List.range ws).map (fun r => l.getD (r * (l.length / ws) + c) 0)).sum)

/-- Observable communication/permutation events of
`parallel_forward_once`, in device program order.  Exchange events
record the count arguments they are invoked with. -/
inductive PEvent where
  | issueCountExchange (send : List Nat) : PEvent
  | localPaddedGather : PEvent
  | waitCountExchange : PEvent
  | bulkExchange (recvCounts sendCounts : List Nat) : PEvent
  | expertCompute : PEvent
  | localPaddedScatter : PEvent
deriving DecidableEq

/-- An event at which the device blocks on the collective runtime: the
explicit `tpe_handle.wait()` of the asynchronously issued count
exchange (moe.py line 336), and each synchronous `all_to_all` bulk data
exchange (lines 400 and 414), whose result is consumed immediately.
Issuing the count exchange with `async_op=True` (line 314–318) does not
block. -/
def isSuspension : PEvent → Bool
  | PEvent.waitCountExchange => true
  | PEvent.bulkExchange _ _ => true
  | _ => false

/-- The count bookkeeping and schedule of one `MoE.parallel_forward_once`
call (moe.py lines 284–420). -/
structure ParallelPlan where
  sendCounts : List Nat
  recvCounts : List Nat
  capacity : Nat
  tokensPerExpertOut : List Nat
  trace : List PEvent
deriving DecidableEq

/-- `MoE.parallel_forward_once` (moe.py lines 284–420), embedded as the
count bookkeeping and the ordered trace of its communication and
permutation steps.  `tpe` is this device's `tokens_per_expert`
histogram; `ptpe` is the count-exchange result
(`parallel_tokens_per_expert`); `ws` is the data-parallel world size.
Trace events in source order: issue async count exchange (lines
312–318), local `padded_gather` (line 331), `tpe_handle.wait()` (line
336), forward `all_to_all(x, recv_counts, send_counts, ...)` (lines
400–402), `permute_and_compute` (lines 405–411), reverse
`all_to_all(parallel_x, send_counts, recv_counts, ...)` (lines
414–416), local `padded_scatter` (line 419).  The resolved capacity
follows lines 393–397 from the summed received counts (lines 383–384);
the returned `tokens_per_expert` is the local histogram, flattened
(line 420). -/
def parallel_forward_once (cfg : Nat) (tpe ptpe : List Nat) (ws : Nat) :
    ParallelPlan :=
  let send := rowSums tpe ws
  let recv := rowSums ptpe ws
  { sendCounts := send
    recvCounts := recv
    capacity := resolve_capacity cfg (colSums ptpe ws)
    tokensPerExpertOut := tpe
    trace := [PEvent.issueCountExchange tpe, PEvent.localPaddedGather,
              PEvent.waitCountExchange, PEvent.bulkExchange recv send,
              PEvent.expertCompute, PEvent.bulkExchange send recv,
              PEvent.localPaddedScatter] }

/-- `tensor.chunk(top_k, dim=-1)` followed by `.squeeze()` on a
`[T, top_k]` tensor (moe.py lines 451–452): column `j` as a flat
vector. -/
def chunkCol (m : List (List α)) (j : Nat) (d : α) : List α :=
  m.map (fun row => row.getD j d)

/-- `out * weight.view(-1, 1)` (moe.py lines 446 and 468): scale each
token row by that token's expert weight. -/
def scaleRows (w : List ℚ) (m : List (List ℚ)) : List (List ℚ) :=
  List.zipWith (fun wi row => row.map (fun v => wi * v)) w m

/-- Elementwise sum of two `[T, H]` batches. -/
def addBatches (a b : List (List ℚ)) : List (List ℚ) :=
  List.zipWith (List.zipWith (· + ·)) a b

/-- The all-zero `[T, H]` batch (the `0` that Python's `sum` starts
from, broadcast). -/
def zeroBatch (T H : Nat) : List (List ℚ) :=
  List.replicate T (List.replicate H (0 : ℚ))

/-- Elementwise sum of two per-expert count vectors. -/
def addCounts (a b : List Nat) : List Nat :=
  List.zipWith (· + ·) a b

/-- `MoE.forward` (moe.py lines 423–475), with the router's outputs
(`scores`, `expert_weights`, `top_experts`) taken as inputs: the
floating-point `routing_scores` (softmax + max / top-k, lines 198–210)
is outside the routing/permutation core and enters only as an opaque
value.  For `top_k == 1` the expert columns have width 1.  The
process-wide load-balancing list is threaded as explicit state `st`;
both paths append exactly one `(tokens_per_expert, scores)` pair (lines
447 and 474).  Returns the combined output and the new list state. -/
def forward (k cfg E H : Nat) (x : List (List ℚ)) (scores : S)
    (expert_weights : List (List ℚ)) (top_experts : List (List Nat))
    (compute : List (List ℚ) → List (List ℚ))
    (st : List (List Nat × S)) :
    List (List ℚ) × List (List Nat × S) :=
  let z := List.replicate H (0 : ℚ)
  if k = 1 then
    let r := forward_once cfg x (chunkCol top_experts 0 0) E compute z
    (scaleRows (chunkCol expert_weights 0 0) r.1,
     save_load_balancing_loss st (r.2, scores))
  else
    let results := (List.range k).map (fun j =>
      forward_once cfg x (chunkCol top_experts j 0) E compute z)
    let weighted := List.zipWith
      (fun r j => scaleRows (chunkCol expert_weights j 0) r.1)
      results (List.range k)
    let out := weighted.foldl addBatches (zeroBatch x.length H)
    let tpe := (results.map Prod.snd).foldl addCounts (List.replicate E 0)
    (out, save_load_balancing_loss st (tpe, scores))

/-- Configuration failure kinds surfaced at construction. -/
inductive ConfigError where
  | divisibility : ConfigError
deriving DecidableEq

/-- The Megatron arguments consumed by `MoE.__init__` and
`create_expert_weights`. -/
structure Args where
  moe_num_experts : Nat
  world_size : Nat
  expert_model_parallelism : Bool
  rank : Nat
  seq_length : Nat
  micro_batch_size : Nat
  moe_capacity_factor : ℚ
  moe_top_k : Nat

/-- Python `int()` applied to a real number: truncation toward zero. -/
def pyInt (q : ℚ) : Int :=
  if q < 0 then ⌈q⌉ else ⌊q⌋

/-- `create_expert_weights` (moe.py lines 70–97), reduced to the
control flow and the slice bookkeeping that decide success: without
expert model parallelism the full weight range is returned; with it,
`assert (num_experts % world_size) == 0` (line 88) fails construction
on non-divisible configurations, otherwise this rank's expert slice
`[rank * nepr, (rank + 1) * nepr)` is returned (lines 89–96). -/
def create_expert_weights (args : Args) : Except ConfigError (Nat × Nat) :=
  if args.expert_model_parallelism then
    if args.moe_num_experts % args.world_size = 0 then
      let nepr := args.moe_num_experts / args.world_size
      Except.ok (args.rank * nepr, (args.rank + 1) * nepr)
    else Except.error ConfigError.divisibility
  else Except.ok (0, args.moe_num_experts)

/-- The configuration-derived fields of a constructed `MoE` module. -/
structure MoEState where
  num_experts : Nat
  num_experts_per_rank : Nat
  expert_capacity : Int
  top_k : Nat
  w1_slice : Nat × Nat
  w2_slice : Nat × Nat
deriving DecidableEq

/-- `MoE.__init__` (moe.py lines 102–190), reduced to its
configuration bookkeeping: `num_experts_per_rank` (lines 110–114), the
fixed expert capacity
`int(moe_capacity_factor * seq_length * micro_batch_size / num_experts_per_rank)`
(lines 116–121), and the two `create_expert_weights` calls (lines
174–179) whose divisibility assertion can fail construction. -/
def init (args : Args) : Except ConfigError MoEState :=
  let ne := args.moe_num_experts
  let nepr :=
    if args.expert_model_parallelism then ne / args.world_size else ne
  let tokensPer : ℚ :=
    ((args.seq_length : ℚ) * (args.micro_batch_size : ℚ)) / (nepr : ℚ)
  let cap := pyInt (args.moe_capacity_factor * tokensPer)
  match create_expert_weights args, create_expert_weights args with
  | Except.ok s1, Except.ok s2 =>
      Except.ok ⟨ne, nepr, cap, args.moe_top_k, s1, s2⟩
  | Except.error e, _ => Except.error e
  | Except.ok _, Except.error e => Except.error e

theorem getD_range_map (f : Nat → α) (d : α) {i n : Nat} (hn : i < n) :
    ((List.range n).map f).getD i d = f i := by
  rw [List.getD_eq_getElem _ _ (by simpa using hn)]
  simp

theorem count_range (a n : Nat) :
    (List.range n).count a = if a < n then 1 else 0 := by
  by_cases h : a < n
  · rw [if_pos h]
    exact List.count_eq_one_of_mem (List.nodup_range n) (List.mem_range.mpr h)
  · rw [if_neg h]
    exact List.count_eq_zero_of_not_mem (fun hc => h (List.mem_range.mp hc))

theorem getD_mem {l : List α} {i : Nat} (h : i < l.length) (d : α) :
    l.getD i d ∈ l := by
  rw [List.getD_eq_getElem _ _ h]
  exact List.getElem_mem h

theorem histogram_length (te : List Nat) (E : Nat) :
    (histogram te E).length = E := by
  simp [histogram]

theorem histogram_getD (te : List Nat) {e E : Nat} (hE : e < E) :
    (histogram te E).getD e 0 = te.count e := by
  unfold histogram
  exact getD_range_map _ _ hE

theorem inclusive_cumsum_length (l : List Nat) :
    (inclusive_cumsum l).length = l.length := by
  simp [inclusive_cumsum]

theorem inclusive_cumsum_getD (l : List Nat) {e : Nat} (h : e < l.length) :
    (inclusive_cumsum l).getD e 0 = (l.take (e + 1)).sum := by
  unfold inclusive_cumsum
  exact getD_range_map _ _ h

theorem binStart_inclusive_cumsum (l : List Nat) {e : Nat}
    (h : e ≤ l.length) :
    binStart (inclusive_cumsum l) e = (l.take e).sum := by
  unfold binStart
  rcases Nat.eq_zero_or_pos e with he | he
  · simp [he]
  · rw [if_neg (by omega), inclusive_cumsum_getD l (by omega)]
    have : e - 1 + 1 = e := by omega
    rw [this]

theorem binCount_inclusive_cumsum (l : List Nat) {e : Nat}
    (h : e < l.length) :
    binCount (inclusive_cumsum l) e = l.getD e 0 := by
  unfold binCount
  rw [inclusive_cumsum_getD l h, binStart_inclusive_cumsum l (le_of_lt h),
    List.sum_take_succ _ _ h, List.getD_eq_getElem _ _ h]
  omega

theorem bucket_cons (a : Nat) (l : List Nat) (e : Nat) :
    bucket (a :: l) e
      = (if a = e then [0] else []) ++ (bucket l e).map Nat.succ := by
  unfold bucket
  rw [List.length_cons, List.range_succ_eq_map, List.filter_cons]
  by_cases h : a = e <;>
    simp [h, List.filter_map, Function.comp_def]

theorem bucket_length (te : List Nat) (e : Nat) :
    (bucket te e).length = te.count e := by
  induction te with
  | nil => simp [bucket]
  | cons a l ih =>
      rw [bucket_cons, List.length_append, List.length_map, ih,
        List.count_cons]
      by_cases h : a = e <;> simp [h, Nat.add_comm]

theorem mem_bucket (te : List Nat) (e t : Nat) :
    t ∈ bucket te e ↔ t < te.length ∧ te.getD t 0 = e := by
  unfold bucket
  simp [List.mem_filter, List.mem_range]

theorem bucket_pairwise (te : List Nat) (e : Nat) :
    (bucket te e).Pairwise (· < ·) :=
  List.Pairwise.sublist (List.filter_sublist _) (List.pairwise_lt_range _)

theorem count_bucket (te : List Nat) (e a : Nat) :
    (bucket te e).count a
      = if te.getD a 0 = e ∧ a < te.length then 1 else 0 := by
  by_cases hp : te.getD a 0 = e
  · unfold bucket
    rw [List.count_filter (by simpa using hp), count_range]
    by_cases ha : a < te.length
    · rw [if_pos ha, if_pos ⟨hp, ha⟩]
    · rw [if_neg ha, if_neg (by tauto)]
  · rw [if_neg (by tauto)]
    rw [List.count_eq_zero]
    intro hmem
    exact hp ((mem_bucket te e a).mp hmem).2

theorem sum_map_single (l : List Nat) (k c : Nat)
    (hnd : l.Nodup) (hk : k ∈ l) :
    (l.map (fun e => if k = e then c else 0)).sum = c := by
  induction l with
  | nil => cases hk
  | cons a t ih =>
      rw [List.map_cons, List.sum_cons]
      rcases List.mem_cons.mp hk with h | h
      · subst h
        have ht : (t.map (fun e => if k = e then c else 0)).sum = 0 := by
          apply List.sum_eq_zero
          intro x hx
          rcases List.mem_map.mp hx with ⟨e, he, rfl⟩
          exact if_neg
            (fun hke => (List.nodup_cons.mp hnd).1 (by rw [hke]; exact he))
        rw [ht, if_pos rfl, Nat.add_zero]
      · have ha : (if k = a then c else 0) = 0 :=
          if_neg (fun h' => (List.nodup_cons.mp hnd).1 (by rw [← h']; exact h))
        rw [ha, ih (List.nodup_cons.mp hnd).2 h, Nat.zero_add]

theorem sortIndices_perm (te : List Nat) (E : Nat)
    (h : ∀ v ∈ te, v < E) :
    (sortIndices te E).Perm (List.range te.length) := by
  rw [List.perm_iff_count]
  intro a
  rw [sortIndices, List.count_flatMap, count_range]
  by_cases ha : a < te.length
  · rw [if_pos ha]
    have hvE : te.getD a 0 < E := h _ (getD_mem ha 0)
    have hmap : (List.range E).map (List.count a ∘ bucket te)
        = (List.range E).map (fun e => if te.getD a 0 = e then 1 else 0) := by
      apply List.map_congr_left
      intro e _
      simp only [Function.comp_apply, count_bucket]
      by_cases hp : te.getD a 0 = e <;> simp [hp, ha]
    rw [hmap, sum_map_single _ _ _ (List.nodup_range E)
      (List.mem_range.mpr hvE)]
  · rw [if_neg ha]
    apply List.sum_eq_zero
    intro x hx
    rcases List.mem_map.mp hx with ⟨e, _, rfl⟩
    simp only [Function.comp_apply, count_bucket]
    rw [if_neg (by tauto)]

theorem sortIndices_length (te : List Nat) (E : Nat)
    (h : ∀ v ∈ te, v < E) :
    (sortIndices te E).length = te.length :=
  ((sortIndices_perm te E h).length_eq).trans (List.length_range _)

theorem sortIndices_nodup (te : List Nat) (E : Nat)
    (h : ∀ v ∈ te, v < E) :
    (sortIndices te E).Nodup :=
  ((sortIndices_perm te E h).nodup_iff).mpr (List.nodup_range _)

theorem histogram_sum (te : List Nat) (E : Nat)
    (h : ∀ v ∈ te, v < E) :
    (histogram te E).sum = te.length := by
  have h1 := sortIndices_length te E h
  rw [sortIndices, List.length_flatMap] at h1
  rw [← h1]
  unfold histogram
  congr 1
  apply List.map_congr_left
  intro e _
  exact (bucket_length te e).symm

theorem getD_drop (l : List α) (d : α) (s j : Nat) :
    (l.drop s).getD j d = l.getD (s + j) d := by
  rw [List.getD_eq_getElem?_getD, List.getD_eq_getElem?_getD,
    List.getElem?_drop]

theorem take_sum_mono (l : List Nat) {a b : Nat} (h : a ≤ b) :
    (l.take a).sum ≤ (l.take b).sum := by
  have h1 : l.take a = (l.take b).take a := by
    rw [List.take_take, min_eq_left h]
  rw [h1]
  exact List.Sublist.sum_le_sum (List.take_sublist _ _)
    (fun v _ => Nat.zero_le v)

theorem take_sum_le (l : List Nat) (a : Nat) : (l.take a).sum ≤ l.sum :=
  List.Sublist.sum_le_sum (List.take_sublist _ _) (fun v _ => Nat.zero_le v)

theorem binStart_le_bins (l : List Nat) {e : Nat} (h : e < l.length) :
    binStart (inclusive_cumsum l) e ≤ (inclusive_cumsum l).getD e 0 := by
  rw [binStart_inclusive_cumsum l (le_of_lt h), inclusive_cumsum_getD l h]
  exact take_sum_mono l (Nat.le_succ e)

theorem binStart_add_binCount (l : List Nat) {e : Nat} (h : e < l.length) :
    binStart (inclusive_cumsum l) e + binCount (inclusive_cumsum l) e
      = (inclusive_cumsum l).getD e 0 := by
  have h1 := binStart_le_bins l h
  unfold binCount
  omega

theorem bins_le_sum (l : List Nat) {e : Nat} (h : e < l.length) :
    (inclusive_cumsum l).getD e 0 ≤ l.sum := by
  rw [inclusive_cumsum_getD l h]
  exact take_sum_le l _

theorem bins_le_binStart (l : List Nat) {e e' : Nat} (h : e < e')
    (h' : e' ≤ l.length) :
    (inclusive_cumsum l).getD e 0 ≤ binStart (inclusive_cumsum l) e' := by
  rw [inclusive_cumsum_getD l (by omega), binStart_inclusive_cumsum l h']
  exact take_sum_mono l (by omega)

theorem getD_flatten_pos (L : List (List α)) (d : α) {e j : Nat}
    (he : e < L.length) (hj : j < (L.getD e []).length) :
    L.flatten.getD (((L.map List.length).take e).sum + j) d
      = (L.getD e []).getD j d := by
  have hLe : L.getD e [] = L[e] := List.getD_eq_getElem L [] he
  rw [hLe] at hj ⊢
  rw [← getD_drop, List.drop_sum_flatten, List.drop_eq_getElem_cons he,
    List.flatten_cons, List.getD_append _ _ _ _ hj]

theorem getD_flatten_const (L : List (List α)) (cap : Nat) (d : α)
    (hL : ∀ l ∈ L, l.length = cap) {e j : Nat}
    (he : e < L.length) (hj : j < cap) :
    L.flatten.getD (e * cap + j) d = (L.getD e []).getD j d := by
  have hml : L.map List.length = List.replicate L.length cap := by
    rw [← List.map_const' L cap]
    exact List.map_congr_left hL
  have hsum : ((L.map List.length).take e).sum = e * cap := by
    rw [hml, List.take_replicate, List.sum_replicate,
      min_eq_left (le_of_lt he), smul_eq_mul]
  rw [← hsum]
  apply getD_flatten_pos L d he
  rw [List.getD_eq_getElem L [] he, hL L[e] (List.getElem_mem he)]
  exact hj

theorem map_length_buckets (te : List Nat) (E : Nat) :
    ((List.range E).map (bucket te)).map List.length = histogram te E := by
  rw [List.map_map]
  unfold histogram
  apply List.map_congr_left
  intro e _
  exact bucket_length te e

theorem sortIndices_getD (te : List Nat) {E e j : Nat} (he : e < E)
    (hj : j < te.count e) :
    (sortIndices te E).getD
        (binStart (inclusive_cumsum (histogram te E)) e + j) 0
      = (bucket te e).getD j 0 := by
  have hlen : e ≤ (histogram te E).length := by
    rw [histogram_length]
    omega
  rw [binStart_inclusive_cumsum _ hlen, sortIndices, List.flatMap_def,
    ← map_length_buckets te E]
  have hLe : ((List.range E).map (bucket te)).getD e [] = bucket te e :=
    getD_range_map _ _ he
  rw [← hLe]
  apply getD_flatten_pos
  · simpa using he
  · rw [hLe, bucket_length]
    exact hj

theorem sort_coverage (te : List Nat) {E t : Nat}
    (h : ∀ v ∈ te, v < E) (ht : t < te.length) :
    ∃ e j, e < E ∧ j < binCount (inclusive_cumsum (histogram te E)) e ∧
      (sortIndices te E).getD
        (binStart (inclusive_cumsum (histogram te E)) e + j) 0 = t := by
  have hvE : te.getD t 0 < E := h _ (getD_mem ht 0)
  have hmem : t ∈ bucket te (te.getD t 0) :=
    (mem_bucket te (te.getD t 0) t).mpr ⟨ht, rfl⟩
  rw [List.mem_iff_getElem] at hmem
  obtain ⟨j, hj, hget⟩ := hmem
  rw [bucket_length] at hj
  refine ⟨te.getD t 0, j, hvE, ?_, ?_⟩
  · rw [binCount_inclusive_cumsum _
        (show te.getD t 0 < (histogram te E).length by
          rw [histogram_length]; exact hvE),
      histogram_getD te hvE]
    exact hj
  · rw [sortIndices_getD te hvE hj,
      List.getD_eq_getElem _ _ (by rw [bucket_length]; exact hj)]
    exact hget

theorem slot_pos_lt (te : List Nat) {E e j : Nat}
    (h : ∀ v ∈ te, v < E) (he : e < E)
    (hj : j < binCount (inclusive_cumsum (histogram te E)) e) :
    binStart (inclusive_cumsum (histogram te E)) e + j < te.length := by
  have hel : e < (histogram te E).length := by
    rw [histogram_length]
    exact he
  have h1 := binStart_add_binCount (histogram te E) hel
  have h2 := bins_le_sum (histogram te E) hel
  have h3 := histogram_sum te E h
  omega

theorem slot_inj (te : List Nat) {E e j e' j' : Nat}
    (he : e < E) (hj : j < binCount (inclusive_cumsum (histogram te E)) e)
    (he' : e' < E)
    (hj' : j' < binCount (inclusive_cumsum (histogram te E)) e')
    (heq : binStart (inclusive_cumsum (histogram te E)) e + j
        = binStart (inclusive_cumsum (histogram te E)) e' + j') :
    e = e' ∧ j = j' := by
  have cross : ∀ a b ja jb : Nat, a < b → b < E →
      ja < binCount (inclusive_cumsum (histogram te E)) a →
      binStart (inclusive_cumsum (histogram te E)) a + ja
        = binStart (inclusive_cumsum (histogram te E)) b + jb → False := by
    intro a b ja jb hab hbE hja hEq
    have hal : a < (histogram te E).length := by
      rw [histogram_length]
      omega
    have h1 := binStart_add_binCount (histogram te E) hal
    have h2 := bins_le_binStart (histogram te E) hab
      (show b ≤ (histogram te E).length by rw [histogram_length]; omega)
    omega
  rcases Nat.lt_trichotomy e e' with hlt | hEq | hgt
  · exact absurd (cross e e' j j' hlt he' hj heq) (fun f => f)
  · subst hEq
    exact ⟨rfl, by omega⟩
  · exact absurd (cross e' e j' j hgt he hj' heq.symm) (fun f => f)

theorem gatherSegment_length (te : List Nat) (x : List α) (z : α)
    {E cap : Nat} (h : ∀ v ∈ te, v < E) {e : Nat} (he : e < E) :
    (gatherSegment x (sortIndices te E)
      (inclusive_cumsum (histogram te E)) cap z e).length = cap := by
  have hel : e < (histogram te E).length := by
    rw [histogram_length]
    exact he
  unfold gatherSegment
  rw [List.length_append, List.length_map, List.length_take,
    List.length_drop, List.length_replicate, sortIndices_length te E h]
  have h1 := binStart_add_binCount (histogram te E) hel
  have h2 := bins_le_sum (histogram te E) hel
  have h3 := histogram_sum te E h
  omega

theorem binned_gather_length (te : List Nat) (x : List α) (z : α)
    {E cap : Nat} (h : ∀ v ∈ te, v < E) :
    (binned_gather x (sortIndices te E)
      (inclusive_cumsum (histogram te E)) cap z).length = E * cap := by
  unfold binned_gather
  rw [List.length_flatMap, inclusive_cumsum_length, histogram_length]
  have hc : (List.range E).map
      (List.length ∘ gatherSegment x (sortIndices te E)
        (inclusive_cumsum (histogram te E)) cap z)
      = (List.range E).map (fun _ => cap) := by
    apply List.map_congr_left
    intro e hmem
    exact gatherSegment_length te x z h (List.mem_range.mp hmem)
  rw [hc, List.map_const', List.sum_replicate, List.length_range,
    smul_eq_mul]

theorem binned_gather_getD (te : List Nat) (x : List α) (z : α)
    {E cap e j : Nat} (h : ∀ v ∈ te, v < E) (he : e < E)
    (hj : j < min (binCount (inclusive_cumsum (histogram te E)) e) cap) :
    (binned_gather x (sortIndices te E)
        (inclusive_cumsum (histogram te E)) cap z).getD (e * cap + j) z
      = x.getD ((sortIndices te E).getD
          (binStart (inclusive_cumsum (histogram te E)) e + j) 0) z := by
  have hel : e < (histogram te E).length := by
    rw [histogram_length]
    exact he
  have hbl : (inclusive_cumsum (histogram te E)).length = E := by
    rw [inclusive_cumsum_length, histogram_length]
  unfold binned_gather
  rw [List.flatMap_def, hbl]
  have hall : ∀ l ∈ (List.range E).map
      (gatherSegment x (sortIndices te E)
        (inclusive_cumsum (histogram te E)) cap z), l.length = cap := by
    intro l hl
    rcases List.mem_map.mp hl with ⟨e', he', rfl⟩
    exact gatherSegment_length te x z h (List.mem_range.mp he')
  rw [getD_flatten_const _ cap z hall (by simpa using he)
    (by omega), getD_range_map _ _ he]
  unfold gatherSegment
  have hsl := slot_pos_lt te h he (show j <
      binCount (inclusive_cumsum (histogram te E)) e by omega)
  have h1 := binStart_add_binCount (histogram te E) hel
  have h2 := bins_le_sum (histogram te E) hel
  have h3 := histogram_sum te E h
  have hjl : j < (((sortIndices te E).drop
      (binStart (inclusive_cumsum (histogram te E)) e)).take
      (min (binCount (inclusive_cumsum (histogram te E)) e) cap)).length := by
    rw [List.length_take, List.length_drop, sortIndices_length te E h]
    omega
  rw [List.getD_append _ _ _ _ (by rwa [List.length_map])]
  rw [List.getD_eq_getElem _ _ (by rwa [List.length_map]),
    List.getElem_map]
  congr 1
  rw [List.getElem_take, List.getElem_drop,
    ← List.getD_eq_getElem _ _
      (show binStart (inclusive_cumsum (histogram te E)) e + j
          < (sortIndices te E).length by
        rw [sortIndices_length te E h]; exact hsl)]

theorem pair_mem_keptSlots {bins : List Nat} {cap e j : Nat} :
    (e, j) ∈ keptSlots bins cap
      ↔ e < bins.length ∧ j < min (binCount bins e) cap := by
  unfold keptSlots
  constructor
  · intro hm
    rcases List.mem_flatMap.mp hm with ⟨a, ha, hmem⟩
    rcases List.mem_map.mp hmem with ⟨b, hb, heq⟩
    have hae : a = e := congrArg Prod.fst heq
    have hbj : b = j := congrArg Prod.snd heq
    subst hae
    subst hbj
    exact ⟨List.mem_range.mp ha, List.mem_range.mp hb⟩
  · intro hm
    exact List.mem_flatMap.mpr ⟨e, List.mem_range.mpr hm.1,
      List.mem_map.mpr ⟨j, List.mem_range.mpr hm.2, rfl⟩⟩

theorem binned_scatter_length (y : List α) (indices bins : List Nat)
    (z : α) :
    (binned_scatter y indices bins z).length = indices.length := by
  simp [binned_scatter]

theorem binned_scatter_getD (y : List α) (indices bins : List Nat) (z : α)
    {t : Nat} (ht : t < indices.length) :
    (binned_scatter y indices bins z).getD t z
      = match (keptSlots bins (y.length / bins.length)).find?
          (fun s => indices.getD (binStart bins s.1 + s.2) 0 == t) with
        | some s => y.getD (s.1 * (y.length / bins.length) + s.2) z
        | none => z := by
  unfold binned_scatter
  exact getD_range_map _ _ ht

theorem sort_slot_value_lt (te : List Nat) {E e j : Nat} (he : e < E)
    (hj : j < te.count e) :
    (sortIndices te E).getD
        (binStart (inclusive_cumsum (histogram te E)) e + j) 0
      < te.length := by
  rw [sortIndices_getD te he hj]
  have hmem : (bucket te e).getD j 0 ∈ bucket te e :=
    getD_mem (by rw [bucket_length]; exact hj) 0
  exact ((mem_bucket te e _).mp hmem).1

theorem scatter_gather_eq (te : List Nat) (E cap : Nat) (x : List α)
    (z : α) (h : ∀ v ∈ te, v < E) (hE : 0 < E)
    (hx : x.length = te.length)
    (hcap : ∀ e, e < E → te.count e ≤ cap) :
    binned_scatter
      (binned_gather x (sortIndices te E)
        (inclusive_cumsum (histogram te E)) cap z)
      (sortIndices te E) (inclusive_cumsum (histogram te E)) z = x := by
  have hbl : (inclusive_cumsum (histogram te E)).length = E := by
    rw [inclusive_cumsum_length, histogram_length]
  have hgl : (binned_gather x (sortIndices te E)
      (inclusive_cumsum (histogram te E)) cap z).length = E * cap :=
    binned_gather_length te x z h
  have hyc : (binned_gather x (sortIndices te E)
        (inclusive_cumsum (histogram te E)) cap z).length
      / (inclusive_cumsum (histogram te E)).length = cap := by
    rw [hgl, hbl]
    exact Nat.mul_div_cancel_left cap hE
  have hbinc : ∀ e, e < E →
      binCount (inclusive_cumsum (histogram te E)) e = te.count e := by
    intro e he
    rw [binCount_inclusive_cumsum _
      (show e < (histogram te E).length by rw [histogram_length]; exact he),
      histogram_getD te he]
  apply List.ext_getElem
  · rw [binned_scatter_length, sortIndices_length te E h, hx]
  intro t h1 h2
  rw [binned_scatter_length, sortIndices_length te E h] at h1
  rw [← List.getD_eq_getElem _ z h2, ← List.getD_eq_getElem _ z
    (by rw [binned_scatter_length, sortIndices_length te E h]; exact h1)]
  rw [binned_scatter_getD _ _ _ _
    (by rw [sortIndices_length te E h]; exact h1), hyc]
  rcases hfind : (keptSlots (inclusive_cumsum (histogram te E)) cap).find?
      (fun s => (sortIndices te E).getD
        (binStart (inclusive_cumsum (histogram te E)) s.1 + s.2) 0 == t)
    with _ | s
  · exfalso
    obtain ⟨e, j, he, hjc, hv⟩ := sort_coverage te h h1
    have hjcnt : j < te.count e := by rw [← hbinc e he]; exact hjc
    have hmem : (e, j) ∈ keptSlots (inclusive_cumsum (histogram te E)) cap :=
      pair_mem_keptSlots.mpr ⟨by rw [hbl]; exact he,
        by rw [hbinc e he]; exact lt_min hjcnt (lt_of_lt_of_le hjcnt
          (hcap e he))⟩
    exact List.find?_eq_none.mp hfind _ hmem (by simpa using hv)
  · have hps := List.find?_some hfind
    have hmem := List.mem_of_find?_eq_some hfind
    rcases s with ⟨e, j⟩
    rw [pair_mem_keptSlots, hbl] at hmem
    have hval : (sortIndices te E).getD
        (binStart (inclusive_cumsum (histogram te E)) e + j) 0 = t := by
      simpa using hps
    rw [hfind]
    dsimp only
    rw [binned_gather_getD te x z h hmem.1 hmem.2, hval]

/-- C1: for every token batch `x` and every expert assignment whose
maximum per-expert count is at most the expert capacity, with an
identity compute function `permute_and_compute` returns `x` exactly:
`binned_scatter (binned_gather x indices bins capacity) indices bins = x`
with no token dropped, where `indices` and `bins` come from
`indices_and_bins`. -/
theorem c1_round_trip_no_drop (te : List Nat) (E cap : Nat) (x : List α)
    (z : α) (h : ∀ v ∈ te, v < E) (hE : 0 < E)
    (hx : x.length = te.length)
    (hcap : ∀ c ∈ (indices_and_bins te E).2.2.2, c ≤ cap) :
    permute_and_compute x (indices_and_bins te E).1
      (indices_and_bins te E).2.2.1 cap id z = x := by
  have hcap' : ∀ e, e < E → te.count e ≤ cap := by
    intro e he
    have hm : (histogram te E).getD e 0 ∈ histogram te E :=
      getD_mem (by rw [histogram_length]; exact he) 0
    have := hcap _ hm
    rwa [histogram_getD te he] at this
  unfold permute_and_compute
  exact scatter_gather_eq te E cap x z h hE hx hcap'

theorem c1_round_trip_no_drop_witness :
    permute_and_compute [10, 20, 30, 40]
      (indices_and_bins [0, 1, 0, 1] 2).1
      (indices_and_bins [0, 1, 0, 1] 2).2.2.1 2 id 0
      = [10, 20, 30, 40] :=
  c1_round_trip_no_drop [0, 1, 0, 1] 2 2 [10, 20, 30, 40] 0
    (by decide) (by decide) (by decide) (by decide)

/-- C2: when expert `e`'s token count exceeds the capacity `C`, exactly
the `C` tokens earliest in the stable sort order for `e` occupy the `C`
rows of `e`'s compute block (row `j1` holds the token at sorted offset
`j1`), and every dropped token (sorted offset `j2 ≥ C`) has its row in
the scatter output left at the default zero row `z`, whatever the
compute result `y` is. -/
theorem c2_capacity_truncation (te : List Nat) (E C : Nat) (x y : List α)
    (z : α) (e j1 j2 : Nat)
    (h : ∀ v ∈ te, v < E) (hE : 0 < E) (he : e < E)
    (hover : C < te.count e) (hy : y.length = E * C)
    (hj1 : j1 < C) (hj2l : C ≤ j2) (hj2 : j2 < te.count e) :
    (binned_gather x (indices_and_bins te E).1
        (indices_and_bins te E).2.2.1 C z).getD (e * C + j1) z
      = x.getD ((indices_and_bins te E).1.getD
          (binStart (indices_and_bins te E).2.2.1 e + j1) 0) z
    ∧ (binned_scatter y (indices_and_bins te E).1
        (indices_and_bins te E).2.2.1 z).getD
          ((indices_and_bins te E).1.getD
            (binStart (indices_and_bins te E).2.2.1 e + j2) 0) z = z := by
  unfold indices_and_bins
  dsimp only
  have hbl : (inclusive_cumsum (histogram te E)).length = E := by
    rw [inclusive_cumsum_length, histogram_length]
  have hbinc : ∀ a, a < E →
      binCount (inclusive_cumsum (histogram te E)) a = te.count a := by
    intro a ha
    rw [binCount_inclusive_cumsum _
      (show a < (histogram te E).length by rw [histogram_length]; exact ha),
      histogram_getD te ha]
  constructor
  · exact binned_gather_getD te x z h he
      (by rw [hbinc e he]; omega)
  · have ht : (sortIndices te E).getD
        (binStart (inclusive_cumsum (histogram te E)) e + j2) 0
        < te.length := sort_slot_value_lt te he hj2
    rw [binned_scatter_getD _ _ _ _
      (by rw [sortIndices_length te E h]; exact ht)]
    have hyc : y.length / (inclusive_cumsum (histogram te E)).length
        = C := by
      rw [hy, hbl]
      exact Nat.mul_div_cancel_left C hE
    rw [hyc]
    have hnone : (keptSlots (inclusive_cumsum (histogram te E)) C).find?
        (fun s => (sortIndices te E).getD
          (binStart (inclusive_cumsum (histogram te E)) s.1 + s.2) 0
          == (sortIndices te E).getD
            (binStart (inclusive_cumsum (histogram te E)) e + j2) 0)
        = none := by
      apply List.find?_eq_none.mpr
      rintro ⟨e', j'⟩ hs
      rw [pair_mem_keptSlots, hbl] at hs
      simp only [beq_iff_eq]
      intro heq
      have hj'c : j' < binCount (inclusive_cumsum (histogram te E)) e' := by
        have := hs.2
        omega
      have hj2c : j2 < binCount (inclusive_cumsum (histogram te E)) e := by
        rw [hbinc e he]
        exact hj2
      have hp' := slot_pos_lt te h hs.1 hj'c
      have hp := slot_pos_lt te h he hj2c
      have hlen := sortIndices_length te E h
      rw [List.getD_eq_getElem _ _ (by rw [hlen]; exact hp'),
        List.getD_eq_getElem _ _ (by rw [hlen]; exact hp)] at heq
      have hpos := (List.Nodup.getElem_inj_iff
        (sortIndices_nodup te E h)).mp heq
      have hdec := slot_inj te hs.1 hj'c he hj2c hpos
      have : j' < C := by
        have := hs.2
        omega
      omega
    rw [hnone]

theorem c2_capacity_truncation_witness :
    ((binned_gather [10, 20, 30, 40] (indices_and_bins [0, 0, 0, 1] 2).1
        (indices_and_bins [0, 0, 0, 1] 2).2.2.1 2 0).getD (0 * 2 + 1) 0
      = [10, 20, 30, 40].getD ((indices_and_bins [0, 0, 0, 1] 2).1.getD
          (binStart (indices_and_bins [0, 0, 0, 1] 2).2.2.1 0 + 1) 0) 0)
    ∧ ((binned_scatter [1, 2, 3, 4] (indices_and_bins [0, 0, 0, 1] 2).1
        (indices_and_bins [0, 0, 0, 1] 2).2.2.1 0).getD
          ((indices_and_bins [0, 0, 0, 1] 2).1.getD
            (binStart (indices_and_bins [0, 0, 0, 1] 2).2.2.1 0 + 2) 0) 0
      = 0) :=
  c2_capacity_truncation [0, 0, 0, 1] 2 2 [10, 20, 30, 40] [1, 2, 3, 4]
    0 0 1 2 (by decide) (by decide) (by decide) (by decide) (by decide)
    (by decide) (by decide) (by decide)

theorem sortIndices_pairwise_lex (te : List Nat) (E : Nat) :
    (sortIndices te E).Pairwise (fun i j =>
      te.getD i 0 < te.getD j 0 ∨ (te.getD i 0 = te.getD j 0 ∧ i < j)) := by
  rw [sortIndices, List.flatMap_def, List.pairwise_flatten]
  constructor
  · intro l hl
    rcases List.mem_map.mp hl with ⟨e, _, rfl⟩
    apply List.Pairwise.imp_of_mem ?_ (bucket_pairwise te e)
    intro a b ha hb hab
    right
    exact ⟨((mem_bucket te e a).mp ha).2.trans
      ((mem_bucket te e b).mp hb).2.symm, hab⟩
  · rw [List.pairwise_map]
    apply List.Pairwise.imp_of_mem ?_ (List.pairwise_lt_range E)
    intro a b _ _ hab x hx y hy
    left
    rw [((mem_bucket te a x).mp hx).2, ((mem_bucket te b y).mp hy).2]
    exact hab

theorem inclusive_cumsum_sorted (l : List Nat) :
    (inclusive_cumsum l).Sorted (· ≤ ·) := by
  unfold inclusive_cumsum
  rw [List.Sorted, List.pairwise_map]
  apply List.Pairwise.imp_of_mem ?_ (List.pairwise_lt_range l.length)
  intro a b _ _ hab
  exact take_sum_mono l (by omega)

/-- C4: for every expert-id vector, `indices_and_bins` returns indices
that are a permutation of `[0, T)` sorted by expert id with ties in
original relative order (stable sort, stated as lexicographic
pairwise ordering of (expert id, original position)), sorted expert ids
that are non-decreasing, a histogram whose counts sum to `T`, and
inclusive-cumsum bins that are non-decreasing with `bins[E-1] = T`. -/
theorem c4_indices_and_bins_invariants (te : List Nat) (E : Nat)
    (h : ∀ v ∈ te, v < E) (hE : 0 < E) :
    (indices_and_bins te E).1.Perm (List.range te.length)
    ∧ (indices_and_bins te E).2.1.Sorted (· ≤ ·)
    ∧ (indices_and_bins te E).1.Pairwise (fun i j =>
        te.getD i 0 < te.getD j 0 ∨ (te.getD i 0 = te.getD j 0 ∧ i < j))
    ∧ (indices_and_bins te E).2.2.2.sum = te.length
    ∧ (indices_and_bins te E).2.2.1.Sorted (· ≤ ·)
    ∧ (indices_and_bins te E).2.2.1.getD (E - 1) 0 = te.length := by
  unfold indices_and_bins
  dsimp only
  refine ⟨sortIndices_perm te E h, ?_, sortIndices_pairwise_lex te E,
    histogram_sum te E h, inclusive_cumsum_sorted _, ?_⟩
  · unfold sortBinIds
    rw [List.Sorted, List.pairwise_map]
    apply List.Pairwise.imp ?_ (sortIndices_pairwise_lex te E)
    intro a b hab
    rcases hab with hlt | ⟨heq, _⟩
    · exact le_of_lt hlt
    · exact le_of_eq heq
  · rw [inclusive_cumsum_getD _
      (show E - 1 < (histogram te E).length by rw [histogram_length]; omega)]
    have hE1 : E - 1 + 1 = E := by omega
    rw [hE1, List.take_of_length_le (by rw [histogram_length])]
    exact histogram_sum te E h

theorem c4_indices_and_bins_invariants_witness :
    (indices_and_bins [0, 1, 0, 1] 2).1.Perm (List.range 4)
    ∧ (indices_and_bins [0, 1, 0, 1] 2).2.1.Sorted (· ≤ ·)
    ∧ (indices_and_bins [0, 1, 0, 1] 2).1.Pairwise (fun i j =>
        [0, 1, 0, 1].getD i 0 < [0, 1, 0, 1].getD j 0
          ∨ ([0, 1, 0, 1].getD i 0 = [0, 1, 0, 1].getD j 0 ∧ i < j))
    ∧ (indices_and_bins [0, 1, 0, 1] 2).2.2.2.sum = 4
    ∧ (indices_and_bins [0, 1, 0, 1] 2).2.2.1.Sorted (· ≤ ·)
    ∧ (indices_and_bins [0, 1, 0, 1] 2).2.2.1.getD (2 - 1) 0 = 4 :=
  c4_indices_and_bins_invariants [0, 1, 0, 1] 2 (by decide) (by decide)

theorem le_foldr_max (l : List Nat) : ∀ v ∈ l, v ≤ l.foldr max 0 := by
  induction l with
  | nil =>
      intro v hv
      cases hv
  | cons a t ih =>
      intro v hv
      rw [List.foldr_cons]
      rcases List.mem_cons.mp hv with rfl | hv
      · exact le_max_left _ _
      · exact le_trans (ih v hv) (le_max_right _ _)

theorem foldr_max_mem (l : List Nat) (hl : l ≠ []) : l.foldr max 0 ∈ l := by
  induction l with
  | nil => cases hl rfl
  | cons a t ih =>
      rw [List.foldr_cons]
      rcases eq_or_ne t [] with rfl | ht
      · simp
      · rcases le_total (t.foldr max 0) a with hle | hle
        · rw [max_eq_left hle]
          exact List.mem_cons_self a t
        · rw [max_eq_right hle]
          exact List.mem_cons_of_mem a (ih ht)

/-- C3: with a configured expert capacity of `0`, both `forward_once`
and `parallel_forward_once` resolve the capacity of the call to the
maximum per-expert token count observed (`torch.max` of the counts):
the resolved capacity bounds every count and is one of the counts, and
as a consequence `forward_once` drops no token — with an identity
compute it reproduces the input batch exactly. -/
theorem c3_zero_capacity_dynamic (te : List Nat) (E : Nat) (x : List α)
    (z : α) (tpe2 ptpe : List Nat) (ws : Nat)
    (h : ∀ v ∈ te, v < E) (hE : 0 < E) (hx : x.length = te.length)
    (hp : colSums ptpe ws ≠ []) :
    (∀ c ∈ (indices_and_bins te E).2.2.2,
        c ≤ resolve_capacity 0 (indices_and_bins te E).2.2.2)
    ∧ resolve_capacity 0 (indices_and_bins te E).2.2.2
        ∈ (indices_and_bins te E).2.2.2
    ∧ forward_once 0 x te E id z = (x, (indices_and_bins te E).2.2.2)
    ∧ (parallel_forward_once 0 tpe2 ptpe ws).capacity
        = resolve_capacity 0 (colSums ptpe ws)
    ∧ (∀ c ∈ colSums ptpe ws,
        c ≤ (parallel_forward_once 0 tpe2 ptpe ws).capacity)
    ∧ (parallel_forward_once 0 tpe2 ptpe ws).capacity
        ∈ colSums ptpe ws := by
  have hne : (indices_and_bins te E).2.2.2 ≠ [] := by
    unfold indices_and_bins
    dsimp only
    intro hc
    have := histogram_length te E
    rw [hc] at this
    simp at this
    omega
  refine ⟨fun c hc => ?_, ?_, ?_, rfl, fun c hc => ?_, ?_⟩
  · unfold resolve_capacity
    rw [if_pos rfl]
    exact le_foldr_max _ c hc
  · unfold resolve_capacity
    rw [if_pos rfl]
    exact foldr_max_mem _ hne
  · unfold forward_once indices_and_bins
    dsimp only
    have hcap : ∀ e, e < E →
        te.count e ≤ resolve_capacity 0 (histogram te E) := by
      intro e he
      unfold resolve_capacity
      rw [if_pos rfl]
      have hm : (histogram te E).getD e 0 ∈ histogram te E :=
        getD_mem (by rw [histogram_length]; exact he) 0
      rw [← histogram_getD te he]
      exact le_foldr_max _ _ hm
    rw [Prod.mk.injEq]
    refine ⟨?_, rfl⟩
    unfold permute_and_compute
    exact scatter_gather_eq te E _ x z h hE hx hcap
  · unfold parallel_forward_once resolve_capacity
    dsimp only
    rw [if_pos rfl]
    exact le_foldr_max _ c hc
  · unfold parallel_forward_once resolve_capacity
    dsimp only
    rw [if_pos rfl]
    exact foldr_max_mem _ hp

theorem c3_zero_capacity_dynamic_witness :
    (∀ c ∈ (indices_and_bins [0, 0, 0, 1] 2).2.2.2,
        c ≤ resolve_capacity 0 (indices_and_bins [0, 0, 0, 1] 2).2.2.2)
    ∧ resolve_capacity 0 (indices_and_bins [0, 0, 0, 1] 2).2.2.2
        ∈ (indices_and_bins [0, 0, 0, 1] 2).2.2.2
    ∧ forward_once 0 [10, 20, 30, 40] [0, 0, 0, 1] 2 id 0
        = ([10, 20, 30, 40], (indices_and_bins [0, 0, 0, 1] 2).2.2.2)
    ∧ (parallel_forward_once 0 [3, 1] [3, 1] 1).capacity
        = resolve_capacity 0 (colSums [3, 1] 1)
    ∧ (∀ c ∈ colSums [3, 1] 1,
        c ≤ (parallel_forward_once 0 [3, 1] [3, 1] 1).capacity)
    ∧ (parallel_forward_once 0 [3, 1] [3, 1] 1).capacity
        ∈ colSums [3, 1] 1 :=
  c3_zero_capacity_dynamic [0, 0, 0, 1] 2 [10, 20, 30, 40] 0 [3, 1]
    [3, 1] 1 (by decide) (by decide) (by decide) (by decide)

example : resolve_capacity 0 [3, 1] = 3 := by decide

example : resolve_capacity 0 (histogram [0, 0, 0, 1] 2) = 3 := by decide

theorem sum_drop_take (l : List Nat) (a : Nat) {b : Nat}
    (h : a + b ≤ l.length) :
    ((l.drop a).take b).sum = ∑ i ∈ Finset.range b, l.getD (a + i) 0 := by
  induction b with
  | zero => simp
  | succ n ih =>
      rw [List.take_succ, List.sum_append, ih (by omega),
        Finset.sum_range_succ, List.getElem?_drop,
        List.getElem?_eq_getElem (show a + n < l.length by omega),
        List.getD_eq_getElem l 0 (show a + n < l.length by omega)]
      simp

/-- C6: in `parallel_forward_once`, `send_counts[j]` is the sum of this
device's per-expert counts over the expert shard owned by device `j`
(row `j` of the `[world_size, num_experts_per_rank]` view of
`tokens_per_expert`), `recv_counts[j]` is derived the same way from the
count-exchange result, and the reverse bulk exchange is invoked with the
send/recv count lists swapped relative to the forward bulk exchange. -/
theorem c6_parallel_exchange_counts (cfg : Nat) (tpe ptpe : List Nat)
    (ws nepr j : Nat) (htl : tpe.length = ws * nepr)
    (hpl : ptpe.length = ws * nepr) (hws : 0 < ws) (hj : j < ws) :
    (parallel_forward_once cfg tpe ptpe ws).sendCounts.getD j 0
      = ∑ i ∈ Finset.range nepr, tpe.getD (j * nepr + i) 0
    ∧ (parallel_forward_once cfg tpe ptpe ws).recvCounts.getD j 0
      = ∑ i ∈ Finset.range nepr, ptpe.getD (j * nepr + i) 0
    ∧ (parallel_forward_once cfg tpe ptpe ws).trace.filterMap
        (fun ev => match ev with
          | PEvent.bulkExchange rc sc => some (rc, sc)
          | _ => none)
      = [((parallel_forward_once cfg tpe ptpe ws).recvCounts,
          (parallel_forward_once cfg tpe ptpe ws).sendCounts),
         ((parallel_forward_once cfg tpe ptpe ws).sendCounts,
          (parallel_forward_once cfg tpe ptpe ws).recvCounts)] := by
  have hmul : j * nepr + nepr = (j + 1) * nepr := by ring
  refine ⟨?_, ?_, rfl⟩
  · show (rowSums tpe ws).getD j 0 = _
    unfold rowSums
    rw [getD_range_map _ _ hj, htl, Nat.mul_div_cancel_left nepr hws]
    apply sum_drop_take
    rw [htl, hmul]
    exact Nat.mul_le_mul_right nepr hj
  · show (rowSums ptpe ws).getD j 0 = _
    unfold rowSums
    rw [getD_range_map _ _ hj, hpl, Nat.mul_div_cancel_left nepr hws]
    apply sum_drop_take
    rw [hpl, hmul]
    exact Nat.mul_le_mul_right nepr hj

theorem c6_parallel_exchange_counts_witness :
    (parallel_forward_once 1 [1, 2, 3, 4] [5, 6, 7, 8] 2).sendCounts.getD
        1 0
      = ∑ i ∈ Finset.range 2, [1, 2, 3, 4].getD (1 * 2 + i) 0
    ∧ (parallel_forward_once 1 [1, 2, 3, 4] [5, 6, 7, 8] 2).recvCounts.getD
        1 0
      = ∑ i ∈ Finset.range 2, [5, 6, 7, 8].getD (1 * 2 + i) 0
    ∧ (parallel_forward_once 1 [1, 2, 3, 4] [5, 6, 7, 8] 2).trace.filterMap
        (fun ev => match ev with
          | PEvent.bulkExchange rc sc => some (rc, sc)
          | _ => none)
      = [((parallel_forward_once 1 [1, 2, 3, 4] [5, 6, 7, 8] 2).recvCounts,
          (parallel_forward_once 1 [1, 2, 3, 4] [5, 6, 7, 8] 2).sendCounts),
         ((parallel_forward_once 1 [1, 2, 3, 4] [5, 6, 7, 8] 2).sendCounts,
          (parallel_forward_once 1 [1, 2, 3, 4] [5, 6, 7, 8] 2).recvCounts)] :=
  c6_parallel_exchange_counts 1 [1, 2, 3, 4] [5, 6, 7, 8] 2 2 1
    (by decide) (by decide) (by decide) (by decide)

/-- C7 counterexample: a `parallel_forward_once` call does not have
exactly two suspension points — its trace blocks on the collective
runtime three times (the count-exchange wait and the two synchronous
bulk all-to-all exchanges, forward and reverse). -/
theorem c7_two_suspension_points_false :
    ¬ (((parallel_forward_once 1 [1] [1] 1).trace.filter
        isSuspension).length = 2) := by
  decide

/-- C7 (amended): every `parallel_forward_once` call has exactly three
suspension points — the wait on the asynchronously issued count
exchange, and the two synchronous bulk-data exchanges (forward and
reverse) — the count exchange is issued as non-blocking (its issue event
suspends nothing) and explicitly waited, and the local padded gather is
performed in program order strictly between issuing the count exchange
(position 0) and waiting on its handle (position 2), at position 1. -/
theorem c7_parallel_schedule (cfg : Nat) (tpe ptpe : List Nat)
    (ws : Nat) :
    ((parallel_forward_once cfg tpe ptpe ws).trace.filter
        isSuspension).length = 3
    ∧ (parallel_forward_once cfg tpe ptpe ws).trace.getD 0
        PEvent.expertCompute = PEvent.issueCountExchange tpe
    ∧ isSuspension (PEvent.issueCountExchange tpe) = false
    ∧ (parallel_forward_once cfg tpe ptpe ws).trace.getD 1
        PEvent.expertCompute = PEvent.localPaddedGather
    ∧ (parallel_forward_once cfg tpe ptpe ws).trace.getD 2
        PEvent.expertCompute = PEvent.waitCountExchange :=
  ⟨rfl, rfl, rfl, rfl, rfl⟩

/-- C8: with expert model parallelism enabled, constructing the module
fails with the divisibility configuration error exactly when the number
of experts is not divisible by the data-parallel world size; the check
is the `assert` inside `create_expert_weights`, reached from
`MoE.__init__`, i.e. at construction. -/
theorem c8_divisibility_config_error (args : Args)
    (_hws : 0 < args.world_size)
    (hemp : args.expert_model_parallelism = true) :
    init args = Except.error ConfigError.divisibility
      ↔ ¬ (args.world_size ∣ args.moe_num_experts) := by
  unfold init create_expert_weights
  rw [hemp]
  rw [if_pos rfl]
  by_cases hmod : args.moe_num_experts % args.world_size = 0
  · rw [if_pos hmod]
    dsimp only
    constructor
    · intro hcontra
      simp at hcontra
    · intro hdvd
      exact absurd (Nat.dvd_iff_mod_eq_zero.mpr hmod) hdvd
  · rw [if_neg hmod]
    dsimp only
    constructor
    · intro _
      intro hdvd
      exact hmod (Nat.dvd_iff_mod_eq_zero.mp hdvd)
    · intro _
      rfl

theorem c8_divisibility_config_error_witness :
    0 < (⟨3, 2, true, 0, 8, 1, 1, 1⟩ : Args).world_size
    ∧ (init ⟨3, 2, true, 0, 8, 1, 1, 1⟩
          = Except.error ConfigError.divisibility
        ↔ ¬ ((⟨3, 2, true, 0, 8, 1, 1, 1⟩ : Args).world_size
            ∣ (⟨3, 2, true, 0, 8, 1, 1, 1⟩ : Args).moe_num_experts)) :=
  ⟨by decide,
   c8_divisibility_config_error ⟨3, 2, true, 0, 8, 1, 1, 1⟩ (by decide) rfl⟩

/-- C9: every invocation of `forward` — on the `top_k == 1` path and the
`top_k > 1` path alike — appends exactly one
`(tokens_per_expert, scores)` pair to the load-balancing list,
`clear_load_balancing_loss` empties the list, and no other operation
mutates it: `get_load_balancing_loss` returns it unchanged and the one
mutator `forward` calls, `save_load_balancing_loss`, appends exactly its
argument. -/
theorem c9_loss_list_lifecycle {S : Type} (k cfg E H : Nat)
    (x : List (List ℚ)) (scores : S) (ew : List (List ℚ))
    (tex : List (List Nat)) (compute : List (List ℚ) → List (List ℚ))
    (st : List (List Nat × S)) (p : List Nat × S) :
    (∃ tpe, (forward k cfg E H x scores ew tex compute st).2
        = st ++ [(tpe, scores)])
    ∧ clear_load_balancing_loss st = ([] : List (List Nat × S))
    ∧ get_load_balancing_loss st = st
    ∧ save_load_balancing_loss st p = st ++ [p] := by
  refine ⟨?_, rfl, rfl, rfl⟩
  unfold forward
  by_cases hk : k = 1
  · rw [if_pos hk]
    exact ⟨_, rfl⟩
  · rw [if_neg hk]
    exact ⟨_, rfl⟩

/-- C10: the fixed expert capacity is computed at construction as
`int(capacity_factor * seq_length * micro_batch_size / num_experts_per_rank)`,
truncating toward zero; consequently, whenever the positive capacity
factor is small enough that the product is below 1, the configured
capacity is 0, and every forward call then resolves the capacity
dynamically (`resolve_capacity 0` is the maximum observed per-expert
count, bounding every count — the no-drop capacity) instead of using a
small fixed capacity.  Stated on the non-expert-parallel configuration,
where `num_experts_per_rank = moe_num_experts`. -/
theorem c10_truncating_capacity_resolves_dynamic (args : Args)
    (tpe : List Nat) (s : MoEState)
    (hemp : args.expert_model_parallelism = false)
    (hcf : 0 < args.moe_capacity_factor)
    (hlt : args.moe_capacity_factor
        * (((args.seq_length : ℚ) * (args.micro_batch_size : ℚ))
          / ((args.moe_num_experts : ℚ))) < 1)
    (hs : init args = Except.ok s) :
    s.expert_capacity
        = pyInt (args.moe_capacity_factor
            * (((args.seq_length : ℚ) * (args.micro_batch_size : ℚ))
              / ((args.moe_num_experts : ℚ))))
    ∧ s.expert_capacity = 0
    ∧ resolve_capacity 0 tpe = tpe.foldr max 0
    ∧ ∀ c ∈ tpe, c ≤ resolve_capacity 0 tpe := by
  have hq0 : (0 : ℚ) ≤ args.moe_capacity_factor
      * (((args.seq_length : ℚ) * (args.micro_batch_size : ℚ))
        / ((args.moe_num_experts : ℚ))) := by positivity
  have hcap0 : pyInt (args.moe_capacity_factor
      * (((args.seq_length : ℚ) * (args.micro_batch_size : ℚ))
        / ((args.moe_num_experts : ℚ)))) = 0 := by
    unfold pyInt
    rw [if_neg (not_lt.mpr hq0)]
    exact Int.floor_eq_zero_iff.mpr (Set.mem_Ico.mpr ⟨hq0, hlt⟩)
  unfold init create_expert_weights at hs
  rw [hemp] at hs
  simp only [Bool.false_eq_true, if_false] at hs
  injection hs with hs2
  refine ⟨?_, ?_, ?_, ?_⟩
  · rw [← hs2]
  · rw [← hs2]
    exact hcap0
  · unfold resolve_capacity
    rw [if_pos rfl]
  · intro c hc
    unfold resolve_capacity
    rw [if_pos rfl]
    exact le_foldr_max tpe c hc

theorem c10_truncating_capacity_resolves_dynamic_witness :
    ((⟨4, 4, 0, 1, (0, 4), (0, 4)⟩ : MoEState).expert_capacity
        = pyInt ((⟨4, 1, false, 0, 2, 1, 1/8, 1⟩ : Args).moe_capacity_factor
            * ((((⟨4, 1, false, 0, 2, 1, 1/8, 1⟩ : Args).seq_length : ℚ)
                * ((⟨4, 1, false, 0, 2, 1, 1/8, 1⟩
                    : Args).micro_batch_size : ℚ))
              / (((⟨4, 1, false, 0, 2, 1, 1/8, 1⟩
                  : Args).moe_num_experts : ℚ)))))
    ∧ (⟨4, 4, 0, 1, (0, 4), (0, 4)⟩ : MoEState).expert_capacity = 0
    ∧ resolve_capacity 0 [3, 1] = [3, 1].foldr max 0
    ∧ ∀ c ∈ [3, 1], c ≤ resolve_capacity 0 [3, 1] :=
  c10_truncating_capacity_resolves_dynamic
    ⟨4, 1, false, 0, 2, 1, 1/8, 1⟩ [3, 1] ⟨4, 4, 0, 1, (0, 4), (0, 4)⟩
    rfl (by norm_num) (by norm_num)
    (by unfold init create_expert_weights pyInt; norm_num)

theorem sum_map_list_range {M : Type} [AddCommMonoid M] (f : Nat → M)
    (n : Nat) :
    ((List.range n).map f).sum = ∑ j ∈ Finset.range n, f j := by
  induction n with
  | zero => simp
  | succ m ih =>
      rw [List.range_succ, List.map_append, List.sum_append, ih,
        Finset.sum_range_succ]
      simp

theorem chunkCol_getD (m : List (List α)) (j t : Nat) (d : α)
    (ht : t < m.length) :
    (chunkCol m j d).getD t d = (m.getD t []).getD j d := by
  unfold chunkCol
  rw [List.getD_eq_getElem _ _ (by rw [List.length_map]; exact ht),
    List.getElem_map, List.getD_eq_getElem m [] ht]

theorem chunkCol_lt (tex : List (List Nat)) (E j : Nat) (hE : 0 < E)
    (htex : ∀ row ∈ tex, ∀ v ∈ row, v < E) :
    ∀ v ∈ chunkCol tex j 0, v < E := by
  intro v hv
  rcases List.mem_map.mp hv with ⟨row, hrow, rfl⟩
  by_cases hj : j < row.length
  · exact htex row hrow _ (getD_mem hj 0)
  · rw [List.getD_eq_default _ _ (by omega)]
    exact hE

theorem forward_once_snd (cfg : Nat) (x : List α) (te : List Nat)
    (E : Nat) (compute : List α → List α) (z : α) :
    (forward_once cfg x te E compute z).2 = histogram te E := rfl

theorem forward_once_fst_length (cfg E : Nat) (x : List α)
    (te : List Nat) (compute : List α → List α) (z : α)
    (h : ∀ v ∈ te, v < E) :
    (forward_once cfg x te E compute z).1.length = te.length := by
  unfold forward_once indices_and_bins
  dsimp only
  unfold permute_and_compute
  rw [binned_scatter_length, sortIndices_length te E h]

theorem binned_gather_row_length (x : List (List ℚ))
    (ind bins : List Nat) (cap H : Nat) (hx : ∀ r ∈ x, r.length = H) :
    ∀ r ∈ binned_gather x ind bins cap (List.replicate H 0),
      r.length = H := by
  intro r hr
  unfold binned_gather gatherSegment at hr
  rcases List.mem_flatMap.mp hr with ⟨e, _, hseg⟩
  rcases List.mem_append.mp hseg with hmap | hrep
  · rcases List.mem_map.mp hmap with ⟨i, _, rfl⟩
    by_cases hi : i < x.length
    · exact hx _ (getD_mem hi _)
    · rw [List.getD_eq_default _ _ (by omega)]
      exact List.length_replicate H 0
  · rw [(List.mem_replicate.mp hrep).2]
    exact List.length_replicate H 0

theorem binned_scatter_row_length (y : List (List ℚ))
    (ind bins : List Nat) (H : Nat) (hy : ∀ r ∈ y, r.length = H) :
    ∀ r ∈ binned_scatter y ind bins (List.replicate H 0),
      r.length = H := by
  intro r hr
  unfold binned_scatter at hr
  rcases List.mem_map.mp hr with ⟨t, _, rfl⟩
  rcases hf : (keptSlots bins (y.length / bins.length)).find?
      (fun s => ind.getD (binStart bins s.1 + s.2) 0 == t) with _ | s
  · rw [hf]
    exact List.length_replicate H 0
  · rw [hf]
    dsimp only
    by_cases hi : s.1 * (y.length / bins.length) + s.2 < y.length
    · exact hy _ (getD_mem hi _)
    · rw [List.getD_eq_default _ _ (by omega)]
      exact List.length_replicate H 0

theorem forward_once_row_length (cfg E H : Nat) (x : List (List ℚ))
    (te : List Nat) (compute : List (List ℚ) → List (List ℚ))
    (hx : ∀ r ∈ x, r.length = H)
    (hcomp : ∀ y, (∀ r ∈ y, r.length = H) →
        (compute y).length = y.length ∧ ∀ r ∈ compute y, r.length = H) :
    ∀ r ∈ (forward_once cfg x te E compute (List.replicate H 0)).1,
      r.length = H := by
  unfold forward_once indices_and_bins
  dsimp only
  unfold permute_and_compute
  apply binned_scatter_row_length
  exact (hcomp _ (binned_gather_row_length x _ _ _ H hx)).2

theorem scaleRows_shape (w : List ℚ) (m : List (List ℚ)) {T H : Nat}
    (hw : w.length = T) (hm : m.length = T)
    (hmr : ∀ r ∈ m, r.length = H) :
    (scaleRows w m).length = T ∧ ∀ r ∈ scaleRows w m, r.length = H := by
  constructor
  · unfold scaleRows
    rw [List.length_zipWith]
    omega
  · intro r hr
    unfold scaleRows at hr
    rw [List.mem_iff_getElem] at hr
    obtain ⟨i, hi, hrw⟩ := hr
    rw [List.getElem_zipWith] at hrw
    rw [← hrw, List.length_map]
    exact hmr _ (List.getElem_mem _)

theorem scaleRows_entry (w : List ℚ) (m : List (List ℚ)) {t hh H : Nat}
    (ht : t < w.length) (htm : t < m.length)
    (hrow : (m.getD t []).length = H) (hhh : hh < H) :
    ((scaleRows w m).getD t []).getD hh 0
      = w.getD t 0 * ((m.getD t []).getD hh 0) := by
  unfold scaleRows
  rw [List.getD_eq_getElem _ _
    (show t < (List.zipWith _ w m).length by
      rw [List.length_zipWith]; omega)]
  rw [List.getElem_zipWith, List.getD_eq_getElem w 0 ht,
    List.getD_eq_getElem m [] htm]
  rw [List.getD_eq_getElem m [] htm] at hrow
  rw [List.getD_eq_getElem _ _
      (show hh < (m[t].map (fun v => w[t] * v)).length by
        rw [List.length_map, hrow]; exact hhh),
    List.getElem_map,
    List.getD_eq_getElem _ _ (show hh < m[t].length by rw [hrow]; exact hhh)]

theorem addBatches_shape (a b : List (List ℚ)) {T H : Nat}
    (ha : a.length = T ∧ ∀ r ∈ a, r.length = H)
    (hb : b.length = T ∧ ∀ r ∈ b, r.length = H) :
    (addBatches a b).length = T
      ∧ ∀ r ∈ addBatches a b, r.length = H := by
  constructor
  · unfold addBatches
    rw [List.length_zipWith, ha.1, hb.1]
    omega
  · intro r hr
    unfold addBatches at hr
    rw [List.mem_iff_getElem] at hr
    obtain ⟨i, hi, hrw⟩ := hr
    rw [List.getElem_zipWith] at hrw
    rw [← hrw, List.length_zipWith,
      ha.2 _ (List.getElem_mem _), hb.2 _ (List.getElem_mem _)]
    omega

theorem zipAdd_row_getD (ra rb : List ℚ) {H hh : Nat}
    (hra : ra.length = H) (hrb : rb.length = H) (hhh : hh < H) :
    (List.zipWith (· + ·) ra rb).getD hh 0
      = ra.getD hh 0 + rb.getD hh 0 := by
  rw [List.getD_eq_getElem _ _
      (show hh < (List.zipWith (· + ·) ra rb).length by
        rw [List.length_zipWith]; omega),
    List.getElem_zipWith,
    List.getD_eq_getElem _ _ (show hh < ra.length by omega),
    List.getD_eq_getElem _ _ (show hh < rb.length by omega)]

theorem addBatches_entry (a b : List (List ℚ)) {T H t hh : Nat}
    (hal : a.length = T) (hbl : b.length = T)
    (har : ∀ r ∈ a, r.length = H) (hbr : ∀ r ∈ b, r.length = H)
    (ht : t < T) (hhh : hh < H) :
    ((addBatches a b).getD t []).getD hh 0
      = ((a.getD t []).getD hh 0) + ((b.getD t []).getD hh 0) := by
  unfold addBatches
  rw [List.getD_eq_getElem _ _
    (show t < (List.zipWith (List.zipWith (· + ·)) a b).length by
      rw [List.length_zipWith]; omega)]
  rw [List.getElem_zipWith, List.getD_eq_getElem a [] (by omega),
    List.getD_eq_getElem b [] (by omega)]
  exact zipAdd_row_getD a[t] b[t] (har _ (List.getElem_mem _))
    (hbr _ (List.getElem_mem _)) hhh

theorem zeroBatch_shape (T H : Nat) :
    (zeroBatch T H).length = T
      ∧ ∀ r ∈ zeroBatch T H, r.length = H := by
  constructor
  · exact List.length_replicate T _
  · intro r hr
    rw [(List.mem_replicate.mp hr).2]
    exact List.length_replicate H 0

theorem zeroBatch_entry (T H t hh : Nat) (ht : t < T) :
    ((zeroBatch T H).getD t []).getD hh 0 = 0 := by
  unfold zeroBatch
  have h1 : t < (List.replicate T (List.replicate H (0 : ℚ))).length := by
    rw [List.length_replicate]
    exact ht
  rw [List.getD_eq_getElem _ _ h1, List.getElem_replicate]
  by_cases hhh : hh < H
  · have h2 : hh < (List.replicate H (0 : ℚ)).length := by
      rw [List.length_replicate]
      exact hhh
    rw [List.getD_eq_getElem _ _ h2, List.getElem_replicate]
  · exact List.getD_eq_default _ _ (by rw [List.length_replicate]; omega)

theorem foldl_addBatches_entry (L : List (List (List ℚ)))
    (acc : List (List ℚ)) {T H t hh : Nat}
    (hacc : acc.length = T ∧ ∀ r ∈ acc, r.length = H)
    (hL : ∀ m ∈ L, m.length = T ∧ ∀ r ∈ m, r.length = H)
    (ht : t < T) (hhh : hh < H) :
    ((L.foldl addBatches acc).getD t []).getD hh 0
      = ((acc.getD t []).getD hh 0)
        + (L.map (fun m => (m.getD t []).getD hh 0)).sum := by
  induction L generalizing acc with
  | nil => simp
  | cons m L ih =>
      rw [List.foldl_cons, List.map_cons, List.sum_cons]
      have hm := hL m (List.mem_cons_self m L)
      have hsh := addBatches_shape acc m hacc hm
      rw [ih (addBatches acc m) hsh
        (fun m' hm' => hL m' (List.mem_cons_of_mem m hm'))]
      rw [addBatches_entry acc m hacc.1 hm.1 hacc.2 hm.2 ht hhh]
      ring

theorem addCounts_getD (a b : List Nat) {E e : Nat} (hal : a.length = E)
    (hbl : b.length = E) (he : e < E) :
    (addCounts a b).getD e 0 = a.getD e 0 + b.getD e 0 := by
  unfold addCounts
  rw [List.getD_eq_getElem _ _
      (show e < (List.zipWith _ a b).length by
        rw [List.length_zipWith]; omega),
    List.getElem_zipWith, List.getD_eq_getElem a 0 (by omega),
    List.getD_eq_getElem b 0 (by omega)]

theorem addCounts_length (a b : List Nat) {E : Nat} (hal : a.length = E)
    (hbl : b.length = E) : (addCounts a b).length = E := by
  unfold addCounts
  rw [List.length_zipWith]
  omega

theorem foldl_addCounts_getD (L : List (List Nat)) (acc : List Nat)
    {E e : Nat} (hacc : acc.length = E) (hL : ∀ c ∈ L, c.length = E)
    (he : e < E) :
    (L.foldl addCounts acc).getD e 0
      = acc.getD e 0 + (L.map (fun c => c.getD e 0)).sum := by
  induction L generalizing acc with
  | nil => simp
  | cons c L ih =>
      rw [List.foldl_cons, List.map_cons, List.sum_cons]
      have hc := hL c (List.mem_cons_self c L)
      rw [ih (addCounts acc c) (addCounts_length acc c hacc hc)
        (fun c' hc' => hL c' (List.mem_cons_of_mem c hc'))]
      rw [addCounts_getD acc c hacc hc he]
      omega

theorem chunkCol_length (m : List (List α)) (j : Nat) (d : α) :
    (chunkCol m j d).length = m.length :=
  List.length_map _ _

theorem getD_append_singleton (l : List α) (p d : α) :
    (l ++ [p]).getD l.length d = p := by
  rw [List.getD_eq_getElem _ _
    (by rw [List.length_append, List.length_cons, List.length_nil]; omega)]
  exact List.getElem_concat_length l p l.length rfl _

/-- C5: for `top_k > 1`, `forward` runs the selected forward strategy
once per `k` on independently chunked expert assignments (column `j` of
the `[T, top_k]` routing data) and combines: every entry of the
returned output equals `Σ_j expert_weight_j * output_j` over the
per-`k` `forward_once` results, and the recorded `tokens_per_expert`
(the pair appended to the load-balancing list) is the elementwise sum
`Σ_j tokens_per_expert_j`. -/
theorem c5_topk_combination {S : Type} (k cfg E H : Nat)
    (x : List (List ℚ)) (scores : S) (ew : List (List ℚ))
    (tex : List (List Nat)) (compute : List (List ℚ) → List (List ℚ))
    (st : List (List Nat × S)) (t hh e : Nat)
    (hk : 1 < k) (hE : 0 < E)
    (hx : x.length = tex.length) (hew : ew.length = tex.length)
    (hxr : ∀ r ∈ x, r.length = H)
    (htex : ∀ row ∈ tex, ∀ v ∈ row, v < E)
    (hcomp : ∀ y, (∀ r ∈ y, r.length = H) →
        (compute y).length = y.length ∧ ∀ r ∈ compute y, r.length = H)
    (ht : t < tex.length) (hhh : hh < H) (he : e < E) :
    ((forward k cfg E H x scores ew tex compute st).1.getD t []).getD hh 0
      = ∑ j ∈ Finset.range k, ((ew.getD t []).getD j 0)
          * (((forward_once cfg x (chunkCol tex j 0) E compute
              (List.replicate H 0)).1.getD t []).getD hh 0)
    ∧ ((forward k cfg E H x scores ew tex compute st).2.getD st.length
          ([], scores)).1.getD e 0
      = ∑ j ∈ Finset.range k,
          (forward_once cfg x (chunkCol tex j 0) E compute
            (List.replicate H 0)).2.getD e 0 := by
  have hk1 : ¬ (k = 1) := by omega
  have hcol : ∀ j, ∀ v ∈ chunkCol tex j 0, v < E :=
    fun j => chunkCol_lt tex E j hE htex
  have hFlen : ∀ j, (forward_once cfg x (chunkCol tex j 0) E compute
      (List.replicate H 0)).1.length = tex.length := by
    intro j
    rw [forward_once_fst_length cfg E x (chunkCol tex j 0) compute
      (List.replicate H 0) (hcol j), chunkCol_length]
  have hFrow : ∀ j, ∀ r ∈ (forward_once cfg x (chunkCol tex j 0) E
      compute (List.replicate H 0)).1, r.length = H :=
    fun j => forward_once_row_length cfg E H x (chunkCol tex j 0)
      compute hxr hcomp
  have hWshape : ∀ j, (scaleRows (chunkCol ew j 0)
        (forward_once cfg x (chunkCol tex j 0) E compute
          (List.replicate H 0)).1).length = tex.length
      ∧ ∀ r ∈ scaleRows (chunkCol ew j 0)
        (forward_once cfg x (chunkCol tex j 0) E compute
          (List.replicate H 0)).1, r.length = H := by
    intro j
    exact scaleRows_shape _ _ (by rw [chunkCol_length]; exact hew)
      (hFlen j) (hFrow j)
  have hzb : (zeroBatch x.length H).length = tex.length
      ∧ ∀ r ∈ zeroBatch x.length H, r.length = H :=
    ⟨(zeroBatch_shape x.length H).1.trans hx, (zeroBatch_shape x.length H).2⟩
  have hL : ∀ m ∈ (List.range k).map (fun j => scaleRows (chunkCol ew j 0)
      (forward_once cfg x (chunkCol tex j 0) E compute
        (List.replicate H 0)).1),
      m.length = tex.length ∧ ∀ r ∈ m, r.length = H := by
    intro m hm
    rcases List.mem_map.mp hm with ⟨j, _, rfl⟩
    exact hWshape j
  have hcl : ∀ c ∈ (List.range k).map (fun j =>
      (forward_once cfg x (chunkCol tex j 0) E compute
        (List.replicate H 0)).2), c.length = E := by
    intro c hc
    rcases List.mem_map.mp hc with ⟨j, _, rfl⟩
    rw [forward_once_snd, histogram_length]
  simp only [forward, if_neg hk1]
  constructor
  · rw [List.zipWith_map_left, List.zipWith_same]
    rw [foldl_addBatches_entry _ _ hzb hL ht hhh]
    rw [zeroBatch_entry x.length H t hh (by omega), zero_add,
      List.map_map]
    have hmc : (List.range k).map ((fun m => (m.getD t []).getD hh 0) ∘
        (fun j => scaleRows (chunkCol ew j 0)
          (forward_once cfg x (chunkCol tex j 0) E compute
            (List.replicate H 0)).1))
        = (List.range k).map (fun j => ((ew.getD t []).getD j 0)
            * (((forward_once cfg x (chunkCol tex j 0) E compute
                (List.replicate H 0)).1.getD t []).getD hh 0)) := by
      apply List.map_congr_left
      intro j _
      dsimp only [Function.comp]
      rw [scaleRows_entry _ _ (by rw [chunkCol_length]; omega)
          (by rw [hFlen j]; exact ht)
          (hFrow j _ (getD_mem (by rw [hFlen j]; exact ht) []))
          hhh,
        chunkCol_getD ew j t 0 (by omega)]
    rw [hmc, sum_map_list_range]
  · show ((save_load_balancing_loss st _).getD st.length
        ([], scores)).1.getD e 0 = _
    unfold save_load_balancing_loss
    rw [getD_append_singleton]
    dsimp only
    rw [List.map_map]
    rw [foldl_addCounts_getD _ _ (List.length_replicate E 0)
      (by
        intro c hc
        rcases List.mem_map.mp hc with ⟨j, _, rfl⟩
        dsimp only [Function.comp]
        rw [forward_once_snd, histogram_length])
      he]
    rw [List.getD_eq_getElem _ _
        (show e < (List.replicate E (0 : Nat)).length by
          rw [List.length_replicate]; exact he),
      List.getElem_replicate, Nat.zero_add, List.map_map]
    rw [sum_map_list_range]
    rfl

theorem c5_topk_combination_witness :
    ((forward 2 1 2 1 [[1], [2]] (0 : Nat) [[1/2, 1/2], [1/3, 2/3]]
        [[0, 1], [1, 0]] id []).1.getD 0 []).getD 0 0
      = ∑ j ∈ Finset.range 2,
          ((([[1/2, 1/2], [1/3, 2/3]] : List (List ℚ)).getD 0 []).getD j 0)
          * (((forward_once 1 [[1], [2]] (chunkCol [[0, 1], [1, 0]] j 0) 2
              id (List.replicate 1 0)).1.getD 0 []).getD 0 0)
    ∧ ((forward 2 1 2 1 [[1], [2]] (0 : Nat) [[1/2, 1/2], [1/3, 2/3]]
          [[0, 1], [1, 0]] id []).2.getD 0 ([], 0)).1.getD 0 0
      = ∑ j ∈ Finset.range 2,
          (forward_once 1 [[1], [2]] (chunkCol [[0, 1], [1, 0]] j 0) 2 id
            (List.replicate 1 0)).2.getD 0 0 :=
  c5_topk_combination 2 1 2 1 [[1], [2]] 0 [[1/2, 1/2], [1/3, 2/3]]
    [[0, 1], [1, 0]] id [] 0 0 0 (by decide) (by decide) rfl rfl
    (by decide) (by decide) (fun _ hy => ⟨rfl, hy⟩) (by decide)
    (by decide) (by decide)

example :
    sortIndices [0, 1, 0, 1] 2 = [0, 2, 1, 3] := by decide

example :
    sortBinIds [0, 1, 0, 1] 2 = [0, 0, 1, 1] := by decide

example :
    histogram [0, 1, 0, 1] 2 = [2, 2] := by decide

example :
    inclusive_cumsum [2, 2] = [2, 4] := by decide

example :
    binned_gather [10, 20, 30, 40] [0, 2, 1, 3] [2, 4] 2 0
      = [10, 30, 20, 40] := by decide

example :
    binned_scatter [10, 30, 20, 40] [0, 2, 1, 3] [2, 4] 0
      = [10, 20, 30, 40] := by decide

example :
    forward_once 2 [10, 20, 30, 40] [0, 1, 0, 1] 2 id 0
      = ([10, 20, 30, 40], [2, 2]) := by decide

example :
    binned_gather [10, 20, 30, 40] (sortIndices [0, 0, 0, 1] 2)
      (inclusive_cumsum (histogram [0, 0, 0, 1] 2)) 2 0
      = [10, 20, 40, 0] := by decide

example :
    permute_and_compute [10, 20, 30, 40] (sortIndices [0, 0, 0, 1] 2)
      (inclusive_cumsum (histogram [0, 0, 0, 1] 2)) 2 id 0
      = [10, 20, 0, 40] := by decide

end MB
